import Mathlib

/-!
Verification of the Markov chain generator core (`src/main.rs`).

The Rust code is shallowly embedded: `State` is a list of token strings,
the `Vec<State>` backing of the `StateIndex` trait is a `List State`,
`sprs::CsMat<u16>` is an association list from `(row, column)` pairs to
counts kept together with the square dimension, and the random draws made
by `rand` are passed in as explicit natural-number oracles.  `Option` is
used for calls that can panic (`unwrap`, out-of-range indexing, unsigned
underflow): `none` models an aborted execution.
-/

set_option autoImplicit false
set_option maxRecDepth 4000

namespace Markov

abbrev Token := String

/-- Rust `State(Vec<String>)`: an ordered tuple of tokens, equality by content. -/
abbrev State := List Token

/-- Rust `State::from_slice`: `index = tokens.len().saturating_sub(state_size);
slice = &tokens[index..]` — the last (at most) `state_size` tokens. -/
def State.from_slice (tokens : List Token) (state_size : Nat) : State :=
  tokens.drop (tokens.length - state_size)

/-- Rust `<Vec<State> as StateIndex>::get_index`: position of the first
content-equal state. -/
def get_index (states : List State) (s : State) : Option Nat :=
  states.findIdx? (fun t => t == s)

/-- Rust `<Vec<State> as StateIndex>::get_state`: `self.get(index)`. -/
def get_state (states : List State) (i : Nat) : Option State :=
  states[i]?

/-- Rust `sprs::CsMat<u16>`, square, as a list of `((row, col), value)` entries
plus the dimension.  Entries are kept in insertion order; the CSR
column-sorted row view is recovered by `outer_view`. -/
structure CsMat where
  dim : Nat
  entries : List ((Nat × Nat) × Nat)
  deriving DecidableEq, Repr

/-- Rust `sprs::CsMat::zero((n, n))`. -/
def CsMat.zero (n : Nat) : CsMat :=
  ⟨n, []⟩

/-- Rust `mat.get(row, col)`: the stored value at `(r, c)`, if any. -/
def CsMat.get (m : CsMat) (r c : Nat) : Option Nat :=
  (m.entries.find? (fun e => e.1 == (r, c))).map (fun e => e.2)

/-- The training-loop matrix update: `match mat.get_mut(row, col) {
Some(count) => *count += 1, None => mat.insert(row, col, 1) }`.  The
increment is a `u16` increment, wrapping modulo `2^16` (release build). -/
def CsMat.incr (m : CsMat) (r c : Nat) : CsMat :=
  match m.get r c with
  | some _ =>
    ⟨m.dim, m.entries.map (fun e => if e.1 == (r, c) then (e.1, (e.2 + 1) % 65536) else e)⟩
  | none => ⟨m.dim, m.entries ++ [((r, c), 1)]⟩

/-- Insertion into a row view kept sorted by column index. -/
def insertByCol (p : Nat × Nat) : List (Nat × Nat) → List (Nat × Nat)
  | [] => [p]
  | q :: rest => if p.1 ≤ q.1 then p :: q :: rest else q :: insertByCol p rest

/-- Sort a row view by column index (CSR stores columns in order). -/
def sortByCol : List (Nat × Nat) → List (Nat × Nat)
  | [] => []
  | p :: rest => insertByCol p (sortByCol rest)

/-- Rust `mat.outer_view(r)`: `None` when `r` is out of range, otherwise the
row entries as `(column, value)` pairs in column order. -/
def CsMat.outer_view (m : CsMat) (r : Nat) : Option (List (Nat × Nat)) :=
  if r < m.dim then
    some (sortByCol ((m.entries.filter (fun e => e.1.1 == r)).map (fun e => (e.1.2, e.2))))
  else none

/-- Rust `MarkovGeneratorBase<Vec<State>>`. -/
structure MarkovGeneratorBase where
  mat : CsMat
  states : List State
  state_size : Nat
  deriving DecidableEq, Repr

/-- Accumulator of the training loop: the growing state index, the matrix,
and `last_state_index`. -/
structure TrainState where
  states : List State
  mat : CsMat
  last : Option Nat
  deriving DecidableEq, Repr

/-- The matrix side of one loop iteration: record a transition into `row`
from `last` when a predecessor exists. -/
def matStep (m : CsMat) (row : Nat) (last : Option Nat) : CsMat :=
  match last with
  | some col => m.incr row col
  | none => m

/-- One iteration of the training loop body for the window `state`:
resolve or assign the row id, record the transition, remember the row. -/
def trainStep (st : TrainState) (state : State) : TrainState :=
  match get_index st.states state with
  | some r => ⟨st.states, matStep st.mat r st.last, some r⟩
  | none =>
    ⟨st.states ++ [state], matStep st.mat st.states.length st.last, some st.states.length⟩

/-- The whole training loop: fold the step over a window sequence from
the empty index, the `dim × dim` zero matrix and no predecessor. -/
def trainFold (dim : Nat) (ws : List State) : TrainState :=
  ws.foldl trainStep ⟨[], CsMat.zero dim, none⟩

/-- The sequence of width-`k` windows visited by the loop
`while (i + state_size) <= tokens.len()`. -/
def windows (tokens : List Token) (k : Nat) : List State :=
  (List.range (tokens.length + 1 - k)).map
    (fun i => State.from_slice ((tokens.drop i).take k) k)

/-- Rust `MarkovGeneratorBase::from_tokens`.  The guard models the `usize`
subtraction `tokens.len() - (state_size - 1)`: when it underflows (or when
`state_size = 0`, where `state_size - 1` itself underflows) the program
aborts, modelled as `none`. -/
def from_tokens (tokens : List Token) (state_size : Nat) : Option MarkovGeneratorBase :=
  if state_size = 0 ∨ tokens.length + 1 < state_size then none
  else
    let maxPossibleStates := tokens.length - (state_size - 1)
    let final := (windows tokens state_size).foldl trainStep
      ⟨[], CsMat.zero maxPossibleStates, none⟩
    some ⟨final.mat, final.states, state_size⟩

/-- Rust `rand::random_range(0..n)` with explicit oracle `r`: panics on an
empty range, otherwise yields a value in `[0, n)`. -/
def random_range (r n : Nat) : Option Nat :=
  if n = 0 then none else some (r % n)

/-- Rust `MarkovGeneratorBase::random_state_index`. -/
def MarkovGeneratorBase.random_state_index (g : MarkovGeneratorBase) (r : Nat) : Option Nat :=
  random_range r g.states.length

/-- Rust `MarkovGeneratorBase::random_state`:
`self.states.get_state(self.random_state_index()).unwrap()`. -/
def MarkovGeneratorBase.random_state (g : MarkovGeneratorBase) (r : Nat) : Option State :=
  (g.random_state_index r).bind (get_state g.states)

/-- Cumulative inversion of `WeightedIndex::sample`: the index selected by
a draw `t` below the total weight. -/
def pick : List Nat → Nat → Nat
  | [], _ => 0
  | w :: ws, t => if t < w then 0 else pick ws (t - w) + 1

/-- Rust `WeightedIndex::new(weights).unwrap()` followed by `.sample`: panics
when the total weight is zero (empty or all-zero weights), otherwise
selects an index with probability proportional to its weight; the draw is
the oracle `r`. -/
def weightedSample (ws : List Nat) (r : Nat) : Option Nat :=
  if ws.sum = 0 then none else some (pick ws (r % ws.sum))

/-- The tail of `MarkovGeneratorBase::predict` after the row index is
resolved: read the row, fall back to `random_state` on an empty row, else
sample a column by weight and return the state registered there. -/
def MarkovGeneratorBase.predict_row (g : MarkovGeneratorBase)
    (row_index rState rSample : Nat) : Option State :=
  (g.mat.outer_view row_index).bind (fun row_view =>
    if row_view = [] then g.random_state rState
    else
      (weightedSample (row_view.map (fun e => e.2)) rSample).bind (fun j =>
        ((row_view.map (fun e => e.1))[j]?).bind (fun selected_col =>
          get_state g.states selected_col)))

/-- Rust `MarkovGeneratorBase::predict`.  `rIdx` is the oracle for the
unknown-state fallback draw, `rState` for the dead-end `random_state`
draw, `rSample` for the weighted sample. -/
def MarkovGeneratorBase.predict (g : MarkovGeneratorBase) (cur : State)
    (rIdx rState rSample : Nat) : Option State :=
  (match get_index g.states cur with
   | some i => some i
   | none => g.random_state_index rIdx).bind
    (fun row_index => g.predict_row row_index rState rSample)

/-! Specification-side functions used to characterise training: the list
of distinct windows in order of first appearance, the id assignment it
induces, and the count of adjacent window pairs mapping to a given
matrix cell. -/

/-- One step of collecting states in order of first appearance. -/
def firstOccStep (acc : List State) (w : State) : List State :=
  if (get_index acc w).isSome then acc else acc ++ [w]

/-- The distinct windows of a training pass, in order of first
appearance: exactly the contents of the `StateIndex` after training. -/
def firstOcc (ws : List State) : List State :=
  ws.foldl firstOccStep []

/-- The id the training pass assigns to a window. -/
def stateId (ws : List State) (s : State) : Option Nat :=
  get_index (firstOcc ws) s

/-- The id of the last processed window: the final `last_state_index`. -/
def lastId (ws : List State) : Option Nat :=
  ws.getLast?.bind (stateId ws)

/-- Adjacent pairs `(prev, cur)` of a list. -/
def pairs {α : Type _} : List α → List (α × α)
  | a :: b :: rest => (a, b) :: pairs (b :: rest)
  | _ => []

/-- How many adjacent window pairs `(prev, cur)` have `id cur = r` and
`id prev = c`: the number of times training increments cell `(r, c)`. -/
def pairCount (ws : List State) (r c : Nat) : Nat :=
  (pairs ws).countP (fun p => stateId ws p.2 == some r && stateId ws p.1 == some c)

/-- The keys (cell coordinates) of the stored matrix entries. -/
def CsMat.keys (m : CsMat) : List (Nat × Nat) :=
  m.entries.map (fun e => e.1)

/-! The persistence codec.  The magic prefix is from `main.rs`; the
payload encoding is modelled from the spec (§4.4/§6): the byte stream  of
the external `postcard` crate is not part of this repository, so the
payload is modelled as LEB128-style varints (the postcard integer wire
format) holding, per the spec table, the chain order, the state list in
id order, and the sparse matrix (dimension plus stored cells). -/

/-- Rust `MAGIC_FILE_BYTES`: the fixed `[0x3, 0x4, 0x5]` prefix. -/
def MAGIC_FILE_BYTES : List Nat := [3, 4, 5]

/-- Modelled from the spec: the postcard varint wire format for unsigned
integers (7 data bits per byte, high bit = continuation). -/
def encVarint (n : Nat) : List Nat :=
  if h : n < 128 then [n] else (n % 128 + 128) :: encVarint (n / 128)
termination_by n
decreasing_by exact Nat.div_lt_self (by omega) (by omega)

/-- Modelled from the spec: varint decoder, consuming a prefix of the
byte stream. -/
def decVarint : List Nat → Option (Nat × List Nat)
  | [] => none
  | b :: rest =>
    if b < 128 then some (b, rest)
    else
      match decVarint rest with
      | some (m, r2) => some (m * 128 + (b - 128), r2)
      | none => none

/-- Modelled from the spec: a sequence is encoded as its length followed
by its elements. -/
def encListWith {α : Type _} (enc : α → List Nat) (l : List α) : List Nat :=
  encVarint l.length ++ (l.map enc).flatten

/-- Modelled from the spec: decode `n` consecutive elements. -/
def decItems {α : Type _} (dec : List Nat → Option (α × List Nat)) :
    Nat → List Nat → Option (List α × List Nat)
  | 0, bs => some ([], bs)
  | n + 1, bs =>
    match dec bs with
    | some (a, bs2) =>
      match decItems dec n bs2 with
      | some (l, bs3) => some (a :: l, bs3)
      | none => none
    | none => none

/-- Modelled from the spec: decode a length-prefixed sequence. -/
def decListWith {α : Type _} (dec : List Nat → Option (α × List Nat))
    (bs : List Nat) : Option (List α × List Nat) :=
  match decVarint bs with
  | some (n, bs2) => decItems dec n bs2
  | none => none

/-- Modelled from the spec: a character is encoded as its code point. -/
def encChar (c : Char) : List Nat := encVarint c.toNat

/-- Modelled from the spec: character decoder. -/
def decChar (bs : List Nat) : Option (Char × List Nat) :=
  match decVarint bs with
  | some (n, bs2) => some (Char.ofNat n, bs2)
  | none => none

/-- Modelled from the spec: a token is a length-prefixed character
sequence. -/
def encToken (s : Token) : List Nat := encListWith encChar s.toList

/-- Modelled from the spec: token decoder. -/
def decToken (bs : List Nat) : Option (Token × List Nat) :=
  match decListWith decChar bs with
  | some (cs, bs2) => some (String.mk cs, bs2)
  | none => none

/-- Modelled from the spec: a state is a length-prefixed token
sequence. -/
def encState (s : State) : List Nat := encListWith encToken s

/-- Modelled from the spec: state decoder. -/
def decState (bs : List Nat) : Option (State × List Nat) :=
  decListWith decToken bs

/-- Modelled from the spec: a stored matrix cell is its row, column and
count. -/
def encEntry (e : (Nat × Nat) × Nat) : List Nat :=
  encVarint e.1.1 ++ (encVarint e.1.2 ++ encVarint e.2)

/-- Modelled from the spec: stored-cell decoder. -/
def decEntry (bs : List Nat) : Option (((Nat × Nat) × Nat) × List Nat) :=
  match decVarint bs with
  | some (r, bs2) =>
    match decVarint bs2 with
    | some (c, bs3) =>
      match decVarint bs3 with
      | some (v, bs4) => some (((r, c), v), bs4)
      | none => none
    | none => none
  | none => none

/-- Modelled from the spec: the serialized model payload — chain order,
state list in id order, matrix dimension and stored cells. -/
def encodeModel (m : MarkovGeneratorBase) : List Nat :=
  encVarint m.state_size ++ (encListWith encState m.states ++
    (encVarint m.mat.dim ++ encListWith encEntry m.mat.entries))

/-- Modelled from the spec: payload decoder; a structurally invalid or
incomplete payload is rejected. -/
def decodeModel (bs : List Nat) : Option MarkovGeneratorBase :=
  match decVarint bs with
  | some (k, bs2) =>
    match decListWith decState bs2 with
    | some (states, bs3) =>
      match decVarint bs3 with
      | some (dim, bs4) =>
        match decListWith decEntry bs4 with
        | some (entries, bs5) =>
          if bs5 = [] then some ⟨⟨dim, entries⟩, states, k⟩ else none
        | none => none
      | none => none
    | none => none
  | none => none

/-- The saved file: magic prefix followed by the payload (the save path
of `main`). -/
def encodeFile (m : MarkovGeneratorBase) : List Nat :=
  MAGIC_FILE_BYTES ++ encodeModel m

/-- The load path of `main`: peek the first three bytes, and when they
match the magic prefix, consume them and decode the rest as a model. -/
def decodeFile (bs : List Nat) : Option MarkovGeneratorBase :=
  if bs.take 3 = MAGIC_FILE_BYTES then decodeModel (bs.drop 3) else none

/-! ### Lemmas about the state index -/

theorem get_index_cons (a : State) (l : List State) (s : State) :
    get_index (a :: l) s =
      if a = s then some 0 else (get_index l s).map (fun i => i + 1) := by
  simp only [get_index, List.findIdx?_cons, List.findIdx?_succ, beq_iff_eq]

theorem get_index_eq_none_iff (l : List State) (s : State) :
    get_index l s = none ↔ s ∉ l := by
  simp only [get_index, List.findIdx?_eq_none_iff, beq_eq_false_iff_ne]
  constructor
  · intro h hs
    exact h s hs rfl
  · intro h x hx heq
    exact h (heq ▸ hx)

theorem get_index_isSome_of_mem {l : List State} {s : State} (h : s ∈ l) :
    (get_index l s).isSome := by
  cases hi : get_index l s with
  | none => exact absurd h ((get_index_eq_none_iff l s).mp hi)
  | some i => rfl

theorem get_index_lt_length {l : List State} {s : State} {i : Nat}
    (h : get_index l s = some i) : i < l.length := by
  induction l generalizing i with
  | nil => simp [get_index] at h
  | cons a l ih =>
    rw [get_index_cons] at h
    by_cases ha : a = s
    · rw [if_pos ha, Option.some.injEq] at h
      subst h
      simp
    · rw [if_neg ha, Option.map_eq_some'] at h
      obtain ⟨j, hj, rfl⟩ := h
      have := ih hj
      simp only [List.length_cons]
      omega

theorem getElem?_of_get_index {l : List State} {s : State} {i : Nat}
    (h : get_index l s = some i) : l[i]? = some s := by
  induction l generalizing i with
  | nil => simp [get_index] at h
  | cons a l ih =>
    rw [get_index_cons] at h
    by_cases ha : a = s
    · rw [if_pos ha, Option.some.injEq] at h
      subst h
      simp [ha]
    · rw [if_neg ha, Option.map_eq_some'] at h
      obtain ⟨j, hj, rfl⟩ := h
      simpa using ih hj

theorem get_index_append_left {l l2 : List State} {s : State} {i : Nat}
    (h : get_index l s = some i) : get_index (l ++ l2) s = some i := by
  simp only [get_index] at h ⊢
  simp [List.findIdx?_append, h]

theorem get_index_concat_self {l : List State} {s : State}
    (h : get_index l s = none) : get_index (l ++ [s]) s = some l.length := by
  simp only [get_index] at h ⊢
  simp [List.findIdx?_append, h]

theorem get_index_concat_of_ne {l : List State} {s w : State} (hne : w ≠ s) :
    get_index (l ++ [w]) s = get_index l s := by
  simp only [get_index, List.findIdx?_append]
  have : ([w].findIdx? (fun t => t == s)) = none := by
    simp [hne]
  rw [this]
  cases l.findIdx? (fun t => t == s) <;> rfl

/-! ### Lemmas about the sparse matrix -/

theorem find?_map_keypres (l : List ((Nat × Nat) × Nat))
    (f : (Nat × Nat) × Nat → (Nat × Nat) × Nat) (hf : ∀ e, (f e).1 = e.1)
    (k2 : Nat × Nat) :
    (l.map f).find? (fun e => e.1 == k2) =
      (l.find? (fun e => e.1 == k2)).map f := by
  induction l with
  | nil => rfl
  | cons a l ih =>
    simp only [List.map_cons, List.find?_cons, hf a]
    cases h : (a.1 == k2)
    · simpa [h] using ih
    · simp [h]

theorem CsMat.dim_incr (m : CsMat) (r c : Nat) : (m.incr r c).dim = m.dim := by
  unfold CsMat.incr
  cases m.get r c <;> rfl

theorem upd_keypres (r c : Nat) :
    ∀ e : (Nat × Nat) × Nat,
      ((if e.1 == (r, c) then (e.1, (e.2 + 1) % 65536) else e) : (Nat × Nat) × Nat).1 = e.1 := by
  intro e
  split <;> rfl

theorem CsMat.get_incr_self (m : CsMat) (r c : Nat) :
    (m.incr r c).get r c = some (((m.get r c).getD 0 + 1) % 65536) := by
  unfold CsMat.incr
  cases hf : m.entries.find? (fun e => e.1 == (r, c)) with
  | none =>
    have hg : m.get r c = none := by simp [CsMat.get, hf]
    rw [hg]
    simp [CsMat.get, List.find?_append, hf]
  | some e =>
    have he : (e.1 == (r, c)) = true := by
      have := List.find?_some hf
      simpa using this
    have hg : m.get r c = some e.2 := by simp [CsMat.get, hf]
    rw [hg]
    simp only [CsMat.get]
    rw [find?_map_keypres _ _ (upd_keypres r c), hf]
    rw [beq_iff_eq] at he
    simp [he]

theorem CsMat.get_incr_other (m : CsMat) {r c r2 c2 : Nat}
    (h : ¬(r2 = r ∧ c2 = c)) : (m.incr r c).get r2 c2 = m.get r2 c2 := by
  have hne : ((r, c) == (r2, c2)) = false := by
    simp only [beq_eq_false_iff_ne, ne_eq, Prod.mk.injEq]
    intro hc
    exact h ⟨hc.1.symm, hc.2.symm⟩
  unfold CsMat.incr
  cases hf : m.entries.find? (fun e => e.1 == (r, c)) with
  | none =>
    have hg : m.get r c = none := by simp [CsMat.get, hf]
    rw [hg]
    simp only [CsMat.get, List.find?_append, hf]
    have h1 : ([((r, c), 1)].find? (fun e => e.1 == (r2, c2))) = none := by
      simp [hne]
    rw [h1]
    cases m.entries.find? (fun e => e.1 == (r2, c2)) <;> rfl
  | some e =>
    have hg : m.get r c = some e.2 := by simp [CsMat.get, hf]
    rw [hg]
    simp only [CsMat.get]
    rw [find?_map_keypres _ _ (upd_keypres r c)]
    cases hf2 : m.entries.find? (fun e => e.1 == (r2, c2)) with
    | none => rfl
    | some e2 =>
      have he2 : e2.1 = (r2, c2) := by
        have := List.find?_some hf2
        rwa [beq_iff_eq] at this
      have hkne : e2.1 ≠ (r, c) := by
        rw [he2]
        intro hc
        rw [Prod.mk.injEq] at hc
        exact h ⟨hc.1, hc.2⟩
      simp [hkne]

theorem CsMat.not_mem_keys_of_get_none {m : CsMat} {r c : Nat}
    (h : m.get r c = none) : (r, c) ∉ m.keys := by
  simp only [CsMat.get, Option.map_eq_none', List.find?_eq_none] at h
  simp only [CsMat.keys, List.mem_map]
  rintro ⟨e, hmem, hk⟩
  exact h e hmem (by simp [hk])

theorem CsMat.keys_incr_of_get_some {m : CsMat} {r c : Nat}
    (h : (m.get r c).isSome) : (m.incr r c).keys = m.keys := by
  unfold CsMat.incr
  cases hg : m.get r c with
  | none => rw [hg] at h; simp at h
  | some v =>
    simp only [CsMat.keys, List.map_map]
    exact List.map_congr_left (fun e _ => upd_keypres r c e)

theorem CsMat.keys_incr_of_get_none {m : CsMat} {r c : Nat}
    (h : m.get r c = none) : (m.incr r c).keys = m.keys ++ [(r, c)] := by
  unfold CsMat.incr
  rw [h]
  simp [CsMat.keys]

theorem CsMat.nodup_keys_incr {m : CsMat} {r c : Nat}
    (h : m.keys.Nodup) : (m.incr r c).keys.Nodup := by
  cases hg : m.get r c with
  | none =>
    rw [CsMat.keys_incr_of_get_none hg]
    have := CsMat.not_mem_keys_of_get_none hg
    simp only [List.nodup_append, List.nodup_cons, List.nodup_nil]
    exact ⟨h, by simp, by simpa [List.disjoint_singleton] using this⟩
  | some v =>
    rw [CsMat.keys_incr_of_get_some (by rw [hg]; rfl)]
    exact h

theorem CsMat.entries_eq_nil_of_get_none {m : CsMat}
    (h : ∀ r c, m.get r c = none) : m.entries = [] := by
  cases he : m.entries with
  | nil => rfl
  | cons e rest =>
    have hg := h e.1.1 e.1.2
    simp only [CsMat.get, he, List.find?_cons] at hg
    have : (e.1 == (e.1.1, e.1.2)) = true := by
      simp
    rw [this] at hg
    simp at hg

theorem find?_eq_of_mem_nodup {l : List ((Nat × Nat) × Nat)} {k : Nat × Nat} {v : Nat}
    (hnod : (l.map (fun e => e.1)).Nodup) (hmem : (k, v) ∈ l) :
    l.find? (fun e => e.1 == k) = some (k, v) := by
  induction l with
  | nil => simp at hmem
  | cons a l ih =>
    simp only [List.map_cons, List.nodup_cons] at hnod
    rcases List.mem_cons.mp hmem with heq | hmem2
    · subst heq
      simp [List.find?_cons]
    · have hne : a.1 ≠ k := by
        intro hk
        exact hnod.1 (hk ▸ List.mem_map.mpr ⟨(k, v), hmem2, rfl⟩)
      rw [List.find?_cons]
      have : (a.1 == k) = false := by simpa using hne
      rw [this]
      exact ih hnod.2 hmem2

theorem CsMat.get_eq_of_mem_nodup {m : CsMat} {k : Nat × Nat} {v : Nat}
    (hnod : m.keys.Nodup) (hmem : (k, v) ∈ m.entries) :
    m.get k.1 k.2 = some v := by
  have hk : ((k.1, k.2) : Nat × Nat) = k := rfl
  simp only [CsMat.get, hk]
  rw [find?_eq_of_mem_nodup hnod hmem]
  rfl

theorem CsMat.mem_of_get {m : CsMat} {r c v : Nat}
    (h : m.get r c = some v) : ((r, c), v) ∈ m.entries := by
  simp only [CsMat.get, Option.map_eq_some'] at h
  obtain ⟨e, hf, hv⟩ := h
  have he : e.1 = (r, c) := by
    have := List.find?_some hf
    rwa [beq_iff_eq] at this
  have : e = ((r, c), v) := by
    rw [Prod.ext_iff]
    exact ⟨he, hv⟩
  exact this ▸ List.mem_of_find?_eq_some hf

/-! ### Lemmas about the row view sort -/

theorem mem_insertByCol (p q : Nat × Nat) (l : List (Nat × Nat)) :
    q ∈ insertByCol p l ↔ q = p ∨ q ∈ l := by
  induction l with
  | nil => simp [insertByCol]
  | cons a l ih =>
    unfold insertByCol
    split
    · simp
    · simp only [List.mem_cons, ih]
      tauto

theorem mem_sortByCol (q : Nat × Nat) (l : List (Nat × Nat)) :
    q ∈ sortByCol l ↔ q ∈ l := by
  induction l with
  | nil => simp [sortByCol]
  | cons a l ih =>
    unfold sortByCol
    rw [mem_insertByCol]
    simp only [List.mem_cons, ih]

theorem sortByCol_eq_nil_iff (l : List (Nat × Nat)) :
    sortByCol l = [] ↔ l = [] := by
  cases l with
  | nil => simp [sortByCol]
  | cons a l =>
    simp only [sortByCol]
    constructor
    · intro h
      have : a ∈ insertByCol a (sortByCol l) := by
        rw [mem_insertByCol]
        exact Or.inl rfl
      rw [h] at this
      simp at this
    · intro h
      simp at h

/-! ### Lemmas about the weighted sampler -/

theorem pick_lt {ws : List Nat} {t : Nat} (h : t < ws.sum) :
    pick ws t < ws.length := by
  induction ws generalizing t with
  | nil => simp at h
  | cons w ws ih =>
    unfold pick
    split
    · simp
    · rename_i hw
      simp only [List.length_cons, Nat.add_lt_add_iff_right]
      apply ih
      simp only [List.sum_cons] at h
      omega

theorem pick_count (ws : List Nat) (j : Nat) :
    ((List.range ws.sum).countP (fun t => pick ws t == j)) = ws.getD j 0 := by
  induction ws generalizing j with
  | nil => simp
  | cons w ws ih =>
    rw [List.sum_cons, List.range_add, List.countP_append, List.countP_map]
    have h1 : (List.range w).countP (fun t => pick (w :: ws) t == j) =
        (List.range w).countP (fun t => 0 == j) := by
      apply List.countP_congr
      intro t ht
      rw [List.mem_range] at ht
      have : pick (w :: ws) t = 0 := by
        unfold pick
        rw [if_pos ht]
      rw [this]
    have h2 : ((List.range ws.sum).countP ((fun t => pick (w :: ws) t == j) ∘ (w + ·))) =
        ((List.range ws.sum).countP (fun t => pick ws t + 1 == j)) := by
      apply List.countP_congr
      intro t ht
      simp only [Function.comp_apply]
      have harg : w + t - w = t := by omega
      have : pick (w :: ws) (w + t) = pick ws t + 1 := by
        rw [show pick (w :: ws) (w + t) =
          if w + t < w then 0 else pick ws (w + t - w) + 1 from rfl]
        rw [if_neg (by omega), harg]
      rw [this]
    rw [h1, h2]
    cases j with
    | zero =>
      have hz : ((List.range ws.sum).countP (fun t => pick ws t + 1 == 0)) = 0 := by
        rw [List.countP_eq_zero]
        intro t _
        simp
      have ho : ((List.range w).countP (fun t => (0 == 0 : Bool))) = w := by
        have hfun : ((fun (t : Nat) => (0 == 0 : Bool))) = fun _ => true := by
          funext t
          simp
        rw [hfun, List.countP_true, List.length_range]
      rw [hz, ho]
      simp
    | succ jj =>
      have hz : ((List.range w).countP (fun t => 0 == jj + 1)) = 0 := by
        rw [List.countP_eq_zero]
        intro t _
        simp
      have hs : ((List.range ws.sum).countP (fun t => pick ws t + 1 == jj + 1)) =
          ((List.range ws.sum).countP (fun t => pick ws t == jj)) := by
        apply List.countP_congr
        intro t _
        simp
      rw [hz, hs, ih]
      simp

/-! ### Lemmas about first-appearance ids and pair counts -/

theorem get_index_isSome_iff_mem (l : List State) (s : State) :
    (get_index l s).isSome ↔ s ∈ l := by
  constructor
  · intro h
    by_contra hmem
    rw [← get_index_eq_none_iff] at hmem
    rw [hmem] at h
    simp at h
  · exact get_index_isSome_of_mem

theorem firstOcc_concat (ws : List State) (w : State) :
    firstOcc (ws ++ [w]) =
      if (get_index (firstOcc ws) w).isSome then firstOcc ws
      else firstOcc ws ++ [w] := by
  unfold firstOcc
  rw [List.foldl_append]
  rfl

theorem mem_firstOcc (s : State) (ws : List State) : s ∈ firstOcc ws ↔ s ∈ ws := by
  induction ws using List.reverseRecOn generalizing s with
  | nil => simp [firstOcc]
  | append_singleton ws w ih =>
    rw [firstOcc_concat]
    split
    · rename_i h
      rw [get_index_isSome_iff_mem, ih w] at h
      simp only [List.mem_append, List.mem_singleton, ih s]
      constructor
      · exact Or.inl
      · rintro (h1 | rfl)
        · exact h1
        · exact h
    · simp [List.mem_append, ih]

theorem length_firstOcc_le (ws : List State) : (firstOcc ws).length ≤ ws.length := by
  induction ws using List.reverseRecOn with
  | nil => simp [firstOcc]
  | append_singleton ws w ih =>
    rw [firstOcc_concat]
    split
    · simp only [List.length_append, List.length_singleton]
      omega
    · simp only [List.length_append, List.length_singleton]
      omega

theorem stateId_concat_of_mem {ws : List State} {s : State} (h : s ∈ ws) (w : State) :
    stateId (ws ++ [w]) s = stateId ws s := by
  unfold stateId
  rw [firstOcc_concat]
  split
  · rfl
  · cases hi : get_index (firstOcc ws) s with
    | none =>
      exact absurd ((mem_firstOcc s ws).mpr h) ((get_index_eq_none_iff _ _).mp hi)
    | some i => exact get_index_append_left hi

theorem stateId_concat_self_of_some {ws : List State} {w : State} {r : Nat}
    (h : get_index (firstOcc ws) w = some r) : stateId (ws ++ [w]) w = some r := by
  unfold stateId
  rw [firstOcc_concat, if_pos (by rw [h]; rfl), h]

theorem stateId_concat_self_of_none {ws : List State} {w : State}
    (h : get_index (firstOcc ws) w = none) :
    stateId (ws ++ [w]) w = some (firstOcc ws).length := by
  unfold stateId
  rw [firstOcc_concat, if_neg (by rw [h]; simp)]
  exact get_index_concat_self h

theorem pairs_concat {α : Type _} {ws : List α} {x : α} (hl : ws.getLast? = some x)
    (w : α) : pairs (ws ++ [w]) = pairs ws ++ [(x, w)] := by
  induction ws generalizing x with
  | nil => simp at hl
  | cons a ws ih =>
    cases ws with
    | nil =>
      rw [List.getLast?_singleton, Option.some.injEq] at hl
      subst hl
      rfl
    | cons b rest =>
      rw [List.getLast?_cons_cons] at hl
      have hstep : pairs (a :: b :: rest ++ [w]) = (a, b) :: pairs ((b :: rest) ++ [w]) := rfl
      rw [hstep, ih hl]
      rfl

theorem mem_of_mem_pairs {α : Type _} {p : α × α} {ws : List α}
    (h : p ∈ pairs ws) : p.1 ∈ ws ∧ p.2 ∈ ws := by
  induction ws with
  | nil => simp [pairs] at h
  | cons a ws ih =>
    cases ws with
    | nil => simp [pairs] at h
    | cons b rest =>
      simp only [pairs, List.mem_cons] at h
      rcases h with rfl | h2
      · exact ⟨List.mem_cons_self _ _, List.mem_cons_of_mem _ (List.mem_cons_self _ _)⟩
      · have := ih h2
        exact ⟨List.mem_cons_of_mem _ this.1, List.mem_cons_of_mem _ this.2⟩

theorem lastId_concat (ws : List State) (w : State) :
    lastId (ws ++ [w]) = stateId (ws ++ [w]) w := by
  unfold lastId
  rw [List.getLast?_concat]
  rfl

theorem lastId_eq_of_getLast? {ws : List State} {x : State}
    (hl : ws.getLast? = some x) : lastId ws = stateId ws x := by
  unfold lastId
  rw [hl]
  rfl

theorem lastId_isSome {ws : List State} (hne : ws ≠ []) : (lastId ws).isSome := by
  rw [lastId_eq_of_getLast? (List.getLast?_eq_getLast ws hne)]
  exact get_index_isSome_of_mem ((mem_firstOcc _ _).mpr (List.getLast_mem hne))

theorem pairCount_concat {ws : List State} {x : State} (hl : ws.getLast? = some x)
    (w : State) (r c row col : Nat)
    (hrow : stateId (ws ++ [w]) w = some row)
    (hcol : stateId ws x = some col) :
    pairCount (ws ++ [w]) r c =
      pairCount ws r c + (if r = row ∧ c = col then 1 else 0) := by
  have hx : x ∈ ws := List.mem_of_getLast?_eq_some hl
  unfold pairCount
  rw [pairs_concat hl w, List.countP_append]
  congr 1
  · apply List.countP_congr
    intro p hp
    obtain ⟨h1, h2⟩ := mem_of_mem_pairs hp
    rw [stateId_concat_of_mem h1 w, stateId_concat_of_mem h2 w]
  · rw [List.countP_cons, List.countP_nil]
    simp only [hrow, stateId_concat_of_mem hx w, hcol]
    by_cases hrc : r = row ∧ c = col
    · obtain ⟨rfl, rfl⟩ := hrc
      simp
    · rw [if_neg hrc]
      have hb : ((some row == some r) && (some col == some c)) = false := by
        rw [Bool.and_eq_false_iff]
        by_cases h1 : row = r
        · subst h1
          right
          have h2 : ¬col = c := fun h2 => hrc ⟨rfl, h2.symm⟩
          simpa using h2
        · left
          simpa using h1
      rw [hb]
      rfl

theorem pairCount_singleton (w : State) (r c : Nat) : pairCount [w] r c = 0 := rfl

/-! ### The training-step helpers -/

theorem matStep_dim (m : CsMat) (row : Nat) (last : Option Nat) :
    (matStep m row last).dim = m.dim := by
  cases last with
  | none => rfl
  | some col => exact CsMat.dim_incr m row col

theorem matStep_nodup {m : CsMat} (row : Nat) (last : Option Nat)
    (h : m.keys.Nodup) : (matStep m row last).keys.Nodup := by
  cases last with
  | none => exact h
  | some col => exact CsMat.nodup_keys_incr h

theorem matStep_get_spec {ws : List State} {w x : State} (hl : ws.getLast? = some x)
    (m : CsMat) (row col : Nat)
    (hrow : stateId (ws ++ [w]) w = some row)
    (hcol : stateId ws x = some col)
    (hget : ∀ r c, m.get r c =
      if pairCount ws r c = 0 then none else some (pairCount ws r c % 65536)) :
    ∀ r c, (m.incr row col).get r c =
      if pairCount (ws ++ [w]) r c = 0
      then none else some (pairCount (ws ++ [w]) r c % 65536) := by
  intro r c
  have hpc := pairCount_concat hl w r c row col hrow hcol
  by_cases hrc : r = row ∧ c = col
  · obtain ⟨rfl, rfl⟩ := hrc
    rw [if_pos ⟨rfl, rfl⟩] at hpc
    rw [CsMat.get_incr_self, hget, hpc]
    by_cases h0 : pairCount ws r c = 0
    · rw [if_pos h0, h0]
      rfl
    · rw [if_neg h0]
      have h1 : pairCount ws r c + 1 ≠ 0 := by omega
      rw [if_neg h1]
      simp only [Option.getD_some]
      rw [Nat.mod_add_mod]
  · rw [if_neg hrc, Nat.add_zero] at hpc
    rw [CsMat.get_incr_other _ hrc, hget, hpc]

/-! ### The training characterisation -/

theorem trainFold_spec (dim : Nat) (ws : List State) :
    (trainFold dim ws).states = firstOcc ws ∧
    (trainFold dim ws).mat.dim = dim ∧
    (trainFold dim ws).mat.keys.Nodup ∧
    (trainFold dim ws).last = lastId ws ∧
    ∀ r c, (trainFold dim ws).mat.get r c =
      if pairCount ws r c = 0 then none else some (pairCount ws r c % 65536) := by
  induction ws using List.reverseRecOn with
  | nil => exact ⟨rfl, rfl, List.nodup_nil, rfl, fun r c => rfl⟩
  | append_singleton ws w ih =>
    obtain ⟨hstates, hdim, hnod, hlast, hget⟩ := ih
    have hfold : trainFold dim (ws ++ [w]) = trainStep (trainFold dim ws) w := by
      unfold trainFold
      rw [List.foldl_append]
      rfl
    cases hw : get_index (firstOcc ws) w with
    | some r =>
      have hwmem : w ∈ ws := by
        rw [← mem_firstOcc, ← get_index_isSome_iff_mem, hw]
        rfl
      have hne : ws ≠ [] := by
        intro hnil
        subst hnil
        simp [firstOcc, get_index] at hw
      have hx := List.getLast?_eq_getLast ws hne
      obtain ⟨col, hcol⟩ : ∃ col, stateId ws (ws.getLast hne) = some col :=
        Option.isSome_iff_exists.mp
          (get_index_isSome_of_mem ((mem_firstOcc _ _).mpr (List.getLast_mem hne)))
      have hstep : trainStep (trainFold dim ws) w =
          ⟨(trainFold dim ws).states,
           matStep (trainFold dim ws).mat r (trainFold dim ws).last, some r⟩ := by
        unfold trainStep
        rw [hstates, hw]
      have hlastws : (trainFold dim ws).last = some col := by
        rw [hlast, lastId_eq_of_getLast? hx, hcol]
      have hrow : stateId (ws ++ [w]) w = some r := stateId_concat_self_of_some hw
      refine ⟨?_, ?_, ?_, ?_, ?_⟩
      · rw [hfold, hstep]
        show (trainFold dim ws).states = firstOcc (ws ++ [w])
        rw [hstates, firstOcc_concat, if_pos (by rw [hw]; rfl)]
      · rw [hfold, hstep]
        show (matStep (trainFold dim ws).mat r (trainFold dim ws).last).dim = dim
        rw [matStep_dim, hdim]
      · rw [hfold, hstep]
        show (matStep (trainFold dim ws).mat r (trainFold dim ws).last).keys.Nodup
        exact matStep_nodup _ _ hnod
      · rw [hfold, hstep]
        show some r = lastId (ws ++ [w])
        rw [lastId_concat, hrow]
      · rw [hfold, hstep]
        intro r2 c2
        show (matStep (trainFold dim ws).mat r (trainFold dim ws).last).get r2 c2 = _
        rw [hlastws]
        show ((trainFold dim ws).mat.incr r col).get r2 c2 = _
        exact matStep_get_spec hx _ r col hrow hcol hget r2 c2
    | none =>
      have hrow : stateId (ws ++ [w]) w = some (firstOcc ws).length :=
        stateId_concat_self_of_none hw
      have hstep : trainStep (trainFold dim ws) w =
          ⟨firstOcc ws ++ [w],
           matStep (trainFold dim ws).mat (firstOcc ws).length (trainFold dim ws).last,
           some (firstOcc ws).length⟩ := by
        unfold trainStep
        rw [hstates, hw]
      by_cases hne : ws = []
      · subst hne
        have hlnil : (trainFold dim ([] : List State)).last = none := hlast
        refine ⟨?_, ?_, ?_, ?_, ?_⟩
        · rw [hfold, hstep]
          rfl
        · rw [hfold, hstep]
          show (matStep (trainFold dim []).mat (firstOcc []).length
            (trainFold dim []).last).dim = dim
          rw [hlnil]
          exact hdim
        · rw [hfold, hstep]
          show (matStep (trainFold dim []).mat (firstOcc []).length
            (trainFold dim []).last).keys.Nodup
          rw [hlnil]
          exact hnod
        · rw [hfold, hstep]
          show some (firstOcc ([] : List State)).length = lastId ([] ++ [w])
          rw [lastId_concat]
          rw [show (([] : List State) ++ [w]) = [w] from rfl]
          simp [stateId, firstOcc, firstOccStep, get_index]
        · rw [hfold, hstep]
          intro r2 c2
          show (matStep (trainFold dim []).mat (firstOcc []).length
            (trainFold dim []).last).get r2 c2 = _
          rw [hlnil]
          show (trainFold dim []).mat.get r2 c2 = _
          rw [hget r2 c2]
          rw [show (([] : List State) ++ [w]) = [w] from rfl]
          rw [show pairCount [] r2 c2 = 0 from rfl, pairCount_singleton]
      · have hx := List.getLast?_eq_getLast ws hne
        obtain ⟨col, hcol⟩ : ∃ col, stateId ws (ws.getLast hne) = some col :=
          Option.isSome_iff_exists.mp
            (get_index_isSome_of_mem ((mem_firstOcc _ _).mpr (List.getLast_mem hne)))
        have hlastws : (trainFold dim ws).last = some col := by
          rw [hlast, lastId_eq_of_getLast? hx, hcol]
        refine ⟨?_, ?_, ?_, ?_, ?_⟩
        · rw [hfold, hstep]
          show firstOcc ws ++ [w] = firstOcc (ws ++ [w])
          rw [firstOcc_concat, if_neg (by rw [hw]; simp)]
        · rw [hfold, hstep]
          show (matStep (trainFold dim ws).mat (firstOcc ws).length
            (trainFold dim ws).last).dim = dim
          rw [matStep_dim, hdim]
        · rw [hfold, hstep]
          show (matStep (trainFold dim ws).mat (firstOcc ws).length
            (trainFold dim ws).last).keys.Nodup
          exact matStep_nodup _ _ hnod
        · rw [hfold, hstep]
          show some (firstOcc ws).length = lastId (ws ++ [w])
          rw [lastId_concat, hrow]
        · rw [hfold, hstep]
          intro r2 c2
          show (matStep (trainFold dim ws).mat (firstOcc ws).length
            (trainFold dim ws).last).get r2 c2 = _
          rw [hlastws]
          show ((trainFold dim ws).mat.incr (firstOcc ws).length col).get r2 c2 = _
          exact matStep_get_spec hx _ (firstOcc ws).length col hrow hcol hget r2 c2

theorem from_tokens_eq (tokens : List Token) (k : Nat)
    (hk : k ≠ 0) (hlen : ¬ tokens.length + 1 < k) :
    from_tokens tokens k =
      some ⟨(trainFold (tokens.length - (k - 1)) (windows tokens k)).mat,
            (trainFold (tokens.length - (k - 1)) (windows tokens k)).states, k⟩ := by
  unfold from_tokens trainFold
  rw [if_neg (by push_neg; exact ⟨hk, by omega⟩)]

theorem from_tokens_spec {tokens : List Token} {k : Nat} {m : MarkovGeneratorBase}
    (h : from_tokens tokens k = some m) :
    m.state_size = k ∧
    m.mat.dim = tokens.length - (k - 1) ∧
    m.states = firstOcc (windows tokens k) ∧
    m.mat.keys.Nodup ∧
    ∀ r c, m.mat.get r c =
      if pairCount (windows tokens k) r c = 0
      then none else some (pairCount (windows tokens k) r c % 65536) := by
  unfold from_tokens at h
  by_cases hg : k = 0 ∨ tokens.length + 1 < k
  · rw [if_pos hg] at h
    simp at h
  · rw [if_neg hg] at h
    simp only [Option.some.injEq] at h
    subst h
    obtain ⟨hstates, hdim, hnod, hlast, hget⟩ :=
      trainFold_spec (tokens.length - (k - 1)) (windows tokens k)
    exact ⟨rfl, hdim, hstates, hnod, hget⟩

theorem from_tokens_guard {tokens : List Token} {k : Nat} {m : MarkovGeneratorBase}
    (h : from_tokens tokens k = some m) : k ≠ 0 ∧ k ≤ tokens.length + 1 := by
  unfold from_tokens at h
  by_cases hg : k = 0 ∨ tokens.length + 1 < k
  · rw [if_pos hg] at h
    simp at h
  · push_neg at hg
    exact ⟨hg.1, hg.2⟩

theorem windows_length (tokens : List Token) (k : Nat) :
    (windows tokens k).length = tokens.length + 1 - k := by
  simp [windows]

theorem from_tokens_states_le_dim {tokens : List Token} {k : Nat}
    {m : MarkovGeneratorBase} (h : from_tokens tokens k = some m) :
    m.states.length ≤ m.mat.dim := by
  obtain ⟨hk, hlen⟩ := from_tokens_guard h
  obtain ⟨_, hdim, hstates, _, _⟩ := from_tokens_spec h
  rw [hstates, hdim]
  have h1 := length_firstOcc_le (windows tokens k)
  rw [windows_length] at h1
  omega

/-! ### Training on a constant corpus (the wrapped-counter model) -/

theorem get_index_singleton_self (w : State) : get_index [w] w = some 0 := by
  simp [get_index]

theorem windows_replicate {n : Nat} (hn : 1 ≤ n) :
    windows (List.replicate n ("a" : Token)) 1 = List.replicate n (["a"] : State) := by
  unfold windows
  rw [List.length_replicate]
  have hmap : ∀ i ∈ List.range (n + 1 - 1),
      State.from_slice (((List.replicate n ("a" : Token)).drop i).take 1) 1 =
        (["a"] : State) := by
    intro i hi
    rw [List.mem_range] at hi
    rw [List.drop_replicate, List.take_replicate]
    rw [show min 1 (n - i) = 1 from by omega]
    rfl
  rw [List.map_congr_left hmap, List.map_const', List.length_range,
    Nat.add_sub_cancel]

theorem firstOcc_replicate {n : Nat} (hn : 1 ≤ n) (w : State) :
    firstOcc (List.replicate n w) = [w] := by
  induction n with
  | zero => omega
  | succ nn ih =>
    cases Nat.eq_zero_or_pos nn with
    | inl h0 =>
      subst h0
      rfl
    | inr hpos =>
      rw [List.replicate_succ', firstOcc_concat, ih hpos,
        if_pos (by rw [get_index_singleton_self]; rfl)]

theorem pairs_replicate {α : Type _} (n : Nat) (a : α) :
    pairs (List.replicate n a) = List.replicate (n - 1) (a, a) := by
  induction n with
  | zero => rfl
  | succ nn ih =>
    cases nn with
    | zero => rfl
    | succ mm =>
      rw [show List.replicate (mm + 1 + 1) a = a :: a :: List.replicate mm a from rfl]
      show (a, a) :: pairs (a :: List.replicate mm a) = _
      rw [show (a :: List.replicate mm a) = List.replicate (mm + 1) a from rfl, ih]
      rfl

theorem pairCount_replicate {n : Nat} (hn : 1 ≤ n) (w : State) (r c : Nat) :
    pairCount (List.replicate n w) r c = if r = 0 ∧ c = 0 then n - 1 else 0 := by
  have hid : stateId (List.replicate n w) w = some 0 := by
    unfold stateId
    rw [firstOcc_replicate hn w]
    exact get_index_singleton_self w
  unfold pairCount
  rw [pairs_replicate, List.countP_replicate]
  by_cases hrc : r = 0 ∧ c = 0
  · obtain ⟨rfl, rfl⟩ := hrc
    simp [hid]
  · rw [if_neg hrc]
    have hsym : ¬(0 = r ∧ 0 = c) := fun hc => hrc ⟨hc.1.symm, hc.2.symm⟩
    simp [hid, hsym]

theorem entries_eq_singleton {m : CsMat} {k0 : Nat × Nat} {v : Nat}
    (hnod : m.keys.Nodup)
    (hv : m.get k0.1 k0.2 = some v)
    (hnone : ∀ r c, (r, c) ≠ k0 → m.get r c = none) :
    m.entries = [(k0, v)] := by
  have hmem : (k0, v) ∈ m.entries := CsMat.mem_of_get hv
  have hkeys : ∀ e ∈ m.entries, e.1 = k0 := by
    intro e he
    by_contra hne
    have hg : m.get e.1.1 e.1.2 = none := hnone e.1.1 e.1.2 hne
    simp only [CsMat.get, Option.map_eq_none', List.find?_eq_none] at hg
    exact hg e he (by simp)
  cases hent : m.entries with
  | nil =>
    rw [hent] at hmem
    simp at hmem
  | cons e rest =>
    cases hrest : rest with
    | nil =>
      rw [hent, hrest] at hmem
      simp only [List.mem_singleton] at hmem
      rw [← hmem]
    | cons e2 rest2 =>
      exfalso
      have he1 : e.1 = k0 := hkeys e (by rw [hent]; exact List.mem_cons_self e _)
      have he2 : e2.1 = k0 := hkeys e2
        (by rw [hent, hrest]; exact List.mem_cons_of_mem _ (List.mem_cons_self e2 _))
      have hkn := hnod
      rw [CsMat.keys, hent, hrest] at hkn
      simp only [List.map_cons, List.nodup_cons, List.mem_cons] at hkn
      exact hkn.1 (Or.inl (he1.trans he2.symm))

theorem replicate_model :
    from_tokens (List.replicate 65537 "a") 1 =
      some ⟨⟨65537, [((0, 0), 0)]⟩, [["a"]], 1⟩ := by
  cases hm : from_tokens (List.replicate 65537 "a") 1 with
  | none =>
    have h2 := from_tokens_eq (List.replicate 65537 "a") 1 (by omega)
      (by rw [List.length_replicate]; omega)
    rw [hm] at h2
    exact Option.noConfusion h2
  | some m =>
    obtain ⟨hss, hdim, hstates, hnod, hget⟩ := from_tokens_spec hm
    rw [windows_replicate (by omega)] at hstates hget
    rw [List.length_replicate] at hdim
    norm_num at hdim
    rw [firstOcc_replicate (by omega)] at hstates
    have hget00 : m.mat.get 0 0 = some 0 := by
      have hpc : pairCount (List.replicate 65537 (["a"] : State)) 0 0 = 65536 := by
        rw [pairCount_replicate (by omega)]
        norm_num
      rw [hget 0 0, hpc]
      norm_num
    have hnone : ∀ r c, ((r, c) : Nat × Nat) ≠ (0, 0) → m.mat.get r c = none := by
      intro r c hne
      have hpc : pairCount (List.replicate 65537 (["a"] : State)) r c = 0 := by
        rw [pairCount_replicate (by omega)]
        exact if_neg (fun hc => hne (by rw [hc.1, hc.2]))
      rw [hget r c, hpc]
      rfl
    have hentries : m.mat.entries = [((0, 0), 0)] :=
      entries_eq_singleton hnod hget00 hnone
    have hmodel : m = ⟨⟨65537, [((0, 0), 0)]⟩, [["a"]], 1⟩ := by
      have heta : m = ⟨⟨m.mat.dim, m.mat.entries⟩, m.states, m.state_size⟩ := rfl
      rw [heta, hdim, hentries, hstates, hss]
    rw [hmodel]

/-! ### Unfolding lemmas for prediction -/

theorem predict_eq_predict_row {g : MarkovGeneratorBase} {cur : State} {i : Nat}
    (h : get_index g.states cur = some i) (rIdx rState rSample : Nat) :
    g.predict cur rIdx rState rSample = g.predict_row i rState rSample := by
  unfold MarkovGeneratorBase.predict
  rw [h]
  rfl

theorem predict_eq_of_not_found {g : MarkovGeneratorBase} {cur : State}
    (h : get_index g.states cur = none) (rIdx rState rSample : Nat) :
    g.predict cur rIdx rState rSample =
      (g.random_state_index rIdx).bind
        (fun row_index => g.predict_row row_index rState rSample) := by
  unfold MarkovGeneratorBase.predict
  rw [h]

theorem predict_row_empty {g : MarkovGeneratorBase} {i : Nat}
    (h : g.mat.outer_view i = some []) (rState rSample : Nat) :
    g.predict_row i rState rSample = g.random_state rState := by
  unfold MarkovGeneratorBase.predict_row
  rw [h]
  rfl

theorem predict_row_nonempty {g : MarkovGeneratorBase} {i : Nat}
    {rv : List (Nat × Nat)} (h : g.mat.outer_view i = some rv) (hne : rv ≠ [])
    (rState rSample : Nat) :
    g.predict_row i rState rSample =
      (weightedSample (rv.map (fun e => e.2)) rSample).bind (fun j =>
        ((rv.map (fun e => e.1))[j]?).bind (fun c => get_state g.states c)) := by
  unfold MarkovGeneratorBase.predict_row
  rw [h]
  simp [hne]

theorem outer_view_some {m : CsMat} {r : Nat} {rv : List (Nat × Nat)}
    (h : m.outer_view r = some rv) :
    r < m.dim ∧
      rv = sortByCol ((m.entries.filter (fun e => e.1.1 == r)).map
        (fun e => (e.1.2, e.2))) := by
  unfold CsMat.outer_view at h
  by_cases hr : r < m.dim
  · rw [if_pos hr, Option.some.injEq] at h
    exact ⟨hr, h.symm⟩
  · rw [if_neg hr] at h
    simp at h

theorem get_of_mem_outer_view {m : CsMat} {r : Nat} {rv : List (Nat × Nat)}
    {c w : Nat} (hnod : m.keys.Nodup) (h : m.outer_view r = some rv)
    (hcw : (c, w) ∈ rv) : m.get r c = some w := by
  obtain ⟨_, hrv⟩ := outer_view_some h
  rw [hrv, mem_sortByCol, List.mem_map] at hcw
  obtain ⟨e, hef, heq⟩ := hcw
  rw [List.mem_filter] at hef
  obtain ⟨hemem, herow⟩ := hef
  rw [beq_iff_eq] at herow
  have hekey : e = ((r, c), w) := by
    have h1 : e.1.2 = c := congrArg Prod.fst heq
    have h2 : e.2 = w := congrArg Prod.snd heq
    have h3 : e.1 = (r, c) := by
      rw [show e.1 = (e.1.1, e.1.2) from rfl, herow, h1]
    rw [show e = (e.1, e.2) from rfl, h2, h3]
  rw [hekey] at hemem
  exact CsMat.get_eq_of_mem_nodup hnod (k := (r, c)) hemem

theorem pairCount_ids_lt {ws : List State} {r c : Nat}
    (h : pairCount ws r c ≠ 0) :
    r < (firstOcc ws).length ∧ c < (firstOcc ws).length := by
  unfold pairCount at h
  have hpos : 0 < (pairs ws).countP
      (fun p => stateId ws p.2 == some r && stateId ws p.1 == some c) := by
    omega
  rw [List.countP_pos_iff] at hpos
  obtain ⟨p, _, hp⟩ := hpos
  rw [Bool.and_eq_true, beq_iff_eq, beq_iff_eq] at hp
  exact ⟨get_index_lt_length hp.1, get_index_lt_length hp.2⟩

/-! ### Round-trip of the persistence codec -/

theorem decVarint_encVarint (n : Nat) :
    ∀ rest, decVarint (encVarint n ++ rest) = some (n, rest) := by
  induction n using Nat.strong_induction_on with
  | _ n ih =>
    intro rest
    by_cases h : n < 128
    · unfold encVarint
      rw [dif_pos h]
      simp [decVarint, h]
    · have hdiv : n / 128 < n := Nat.div_lt_self (by omega) (by omega)
      unfold encVarint
      rw [dif_neg h, List.cons_append]
      rw [show decVarint ((n % 128 + 128) :: (encVarint (n / 128) ++ rest)) =
        (if n % 128 + 128 < 128 then some (n % 128 + 128, encVarint (n / 128) ++ rest)
         else
           match decVarint (encVarint (n / 128) ++ rest) with
           | some (m, r2) => some (m * 128 + (n % 128 + 128 - 128), r2)
           | none => none) from rfl]
      rw [if_neg (by omega), ih (n / 128) hdiv rest]
      show some (n / 128 * 128 + (n % 128 + 128 - 128), rest) = some (n, rest)
      have harith : n / 128 * 128 + (n % 128 + 128 - 128) = n := by omega
      rw [harith]

theorem decItems_roundtrip {α : Type _} (enc : α → List Nat)
    (dec : List Nat → Option (α × List Nat))
    (hrt : ∀ a rest, dec (enc a ++ rest) = some (a, rest)) :
    ∀ (l : List α) (rest : List Nat),
      decItems dec l.length ((l.map enc).flatten ++ rest) = some (l, rest) := by
  intro l
  induction l with
  | nil =>
    intro rest
    rfl
  | cons a l ih =>
    intro rest
    rw [List.map_cons, List.flatten_cons, List.append_assoc]
    rw [show decItems dec (a :: l).length (enc a ++ ((l.map enc).flatten ++ rest)) =
      (match dec (enc a ++ ((l.map enc).flatten ++ rest)) with
       | some (a2, bs2) =>
         match decItems dec l.length bs2 with
         | some (l2, bs3) => some (a2 :: l2, bs3)
         | none => none
       | none => none) from rfl]
    rw [hrt a]
    show (match decItems dec l.length ((l.map enc).flatten ++ rest) with
       | some (l2, bs3) => some (a :: l2, bs3)
       | none => none) = some (a :: l, rest)
    rw [ih rest]

theorem decListWith_roundtrip {α : Type _} (enc : α → List Nat)
    (dec : List Nat → Option (α × List Nat))
    (hrt : ∀ a rest, dec (enc a ++ rest) = some (a, rest))
    (l : List α) (rest : List Nat) :
    decListWith dec (encListWith enc l ++ rest) = some (l, rest) := by
  unfold encListWith decListWith
  rw [List.append_assoc, decVarint_encVarint]
  exact decItems_roundtrip enc dec hrt l rest

theorem decChar_encChar (c : Char) (rest : List Nat) :
    decChar (encChar c ++ rest) = some (c, rest) := by
  unfold encChar decChar
  rw [decVarint_encVarint]
  show some (Char.ofNat c.toNat, rest) = some (c, rest)
  rw [Char.ofNat_toNat]

theorem decToken_encToken (s : Token) (rest : List Nat) :
    decToken (encToken s ++ rest) = some (s, rest) := by
  unfold encToken decToken
  rw [decListWith_roundtrip encChar decChar decChar_encChar]
  show some (String.mk s.toList, rest) = some (s, rest)
  rfl

theorem decState_encState (s : State) (rest : List Nat) :
    decState (encState s ++ rest) = some (s, rest) := by
  unfold encState decState
  exact decListWith_roundtrip encToken decToken decToken_encToken s rest

theorem decEntry_encEntry (e : (Nat × Nat) × Nat) (rest : List Nat) :
    decEntry (encEntry e ++ rest) = some (e, rest) := by
  unfold encEntry decEntry
  rw [List.append_assoc, List.append_assoc]
  rw [decVarint_encVarint]
  show (match decVarint (encVarint e.1.2 ++ (encVarint e.2 ++ rest)) with
    | some (c, bs3) =>
      match decVarint bs3 with
      | some (v, bs4) => some (((e.1.1, c), v), bs4)
      | none => none
    | none => none) = some (e, rest)
  rw [decVarint_encVarint]
  show (match decVarint (encVarint e.2 ++ rest) with
    | some (v, bs4) => some (((e.1.1, e.1.2), v), bs4)
    | none => none) = some (e, rest)
  rw [decVarint_encVarint]

theorem decodeModel_encodeModel (m : MarkovGeneratorBase) :
    decodeModel (encodeModel m) = some m := by
  unfold encodeModel decodeModel
  rw [show encListWith encEntry m.mat.entries =
    encListWith encEntry m.mat.entries ++ [] from (List.append_nil _).symm]
  rw [decVarint_encVarint]
  show (match decListWith decState (encListWith encState m.states ++
      (encVarint m.mat.dim ++ (encListWith encEntry m.mat.entries ++ []))) with
    | some (states, bs3) =>
      match decVarint bs3 with
      | some (dim, bs4) =>
        match decListWith decEntry bs4 with
        | some (entries, bs5) =>
          if bs5 = [] then some ⟨⟨dim, entries⟩, states, m.state_size⟩ else none
        | none => none
      | none => none
    | none => none) = some m
  rw [decListWith_roundtrip encState decState decState_encState]
  show (match decVarint (encVarint m.mat.dim ++
      (encListWith encEntry m.mat.entries ++ [])) with
    | some (dim, bs4) =>
      match decListWith decEntry bs4 with
      | some (entries, bs5) =>
        if bs5 = [] then some ⟨⟨dim, entries⟩, m.states, m.state_size⟩ else none
      | none => none
    | none => none) = some m
  rw [decVarint_encVarint]
  show (match decListWith decEntry (encListWith encEntry m.mat.entries ++ []) with
    | some (entries, bs5) =>
      if bs5 = [] then some ⟨⟨m.mat.dim, entries⟩, m.states, m.state_size⟩ else none
    | none => none) = some m
  rw [decListWith_roundtrip encEntry decEntry decEntry_encEntry]
  rfl

theorem decodeFile_encodeFile (m : MarkovGeneratorBase) :
    decodeFile (encodeFile m) = some m := by
  unfold decodeFile encodeFile MAGIC_FILE_BYTES
  rw [if_pos (by rfl)]
  exact decodeModel_encodeModel m

/-! ### The claims -/

/-- C1 counterexample: on the corpus `[a, b, a, b, a, b]` with chain order
1 the trained matrix holds `row(b), col(a) = 3`, not `2` as the claim
states — the six windows produce five adjacent pairs, three of which are
`a` before `b`. -/
theorem claim_C1_counterexample :
    from_tokens ["a", "b", "a", "b", "a", "b"] 1 =
      some ⟨⟨6, [((1, 0), 3), ((0, 1), 2)]⟩, [["a"], ["b"]], 1⟩ ∧
    get_index [["a"], ["b"]] ["a"] = some 0 ∧
    get_index [["a"], ["b"]] ["b"] = some 1 ∧
    (⟨⟨6, [((1, 0), 3), ((0, 1), 2)]⟩, [["a"], ["b"]], 1⟩ :
      MarkovGeneratorBase).mat.get 1 0 = some 3 ∧
    ¬((⟨⟨6, [((1, 0), 3), ((0, 1), 2)]⟩, [["a"], ["b"]], 1⟩ :
      MarkovGeneratorBase).mat.get 1 0 = some 2) := by
  refine ⟨rfl, rfl, rfl, rfl, ?_⟩
  decide

/-- C1 (amended): training registers each previously-unseen window state
in first-appearance order and the stored value at cell
`(row = id cur, col = id prev)` is the number of adjacent window pairs
mapping there (taken mod 2^16; absent exactly when that count is zero;
the first window contributes no transition).  For the corpus
`[a, b, a, b, a, b]` with chain order 1 the resulting matrix holds exactly
`row(b), col(a) = 3` and `row(a), col(b) = 2`. -/
theorem claim_C1_training :
    (∀ tokens k m, from_tokens tokens k = some m →
      m.states = firstOcc (windows tokens k) ∧
      ∀ r c, m.mat.get r c =
        if pairCount (windows tokens k) r c = 0
        then none else some (pairCount (windows tokens k) r c % 65536)) ∧
    from_tokens ["a", "b", "a", "b", "a", "b"] 1 =
      some ⟨⟨6, [((1, 0), 3), ((0, 1), 2)]⟩, [["a"], ["b"]], 1⟩ := by
  constructor
  · intro tokens k m h
    obtain ⟨_, _, hstates, _, hget⟩ := from_tokens_spec h
    exact ⟨hstates, hget⟩
  · rfl

/-- C1 witness: the general characterisation applied to the two-token
corpus `[a, b]` with chain order 1. -/
theorem claim_C1_witness :
    (⟨⟨2, [((1, 0), 1)]⟩, [["a"], ["b"]], 1⟩ : MarkovGeneratorBase).states =
      firstOcc (windows ["a", "b"] 1) ∧
    (⟨⟨2, [((1, 0), 1)]⟩, [["a"], ["b"]], 1⟩ : MarkovGeneratorBase).mat.get 1 0 =
      (if pairCount (windows ["a", "b"] 1) 1 0 = 0 then none
       else some (pairCount (windows ["a", "b"] 1) 1 0 % 65536)) := by
  have h := claim_C1_training.1 ["a", "b"] 1
    ⟨⟨2, [((1, 0), 1)]⟩, [["a"], ["b"]], 1⟩ rfl
  exact ⟨h.1, h.2 1 0⟩

/-- C2 (code bug): for input shorter than the chain order the code raises
no `InsufficientInput` error: at `["a"]` with order 2 it silently builds a
degenerate model with no states, and at `[]` with order 2 the `usize`
subtraction underflows and the process aborts. -/
theorem claim_C2_short_input :
    from_tokens ["a"] 2 = some ⟨⟨0, []⟩, [], 2⟩ ∧
    from_tokens ([] : List Token) 2 = none :=
  ⟨rfl, rfl⟩

/-- C3 counterexample: the model trained from `["a"]` with chain order 2
has no registered states, and predict on an unregistered state then
panics (the empty random range) instead of substituting a random id. -/
theorem claim_C3_counterexample :
    from_tokens ["a"] 2 = some ⟨⟨0, []⟩, [], 2⟩ ∧
    get_index ([] : List State) ["x", "y"] = none ∧
    (⟨⟨0, []⟩, [], 2⟩ : MarkovGeneratorBase).predict ["x", "y"] 0 0 0 = none :=
  ⟨rfl, rfl, rfl⟩

/-- C3 (amended): for a trained model with at least one registered state,
predict survives both recoverable conditions: an unregistered current
state is replaced by a uniformly random valid row id and prediction
proceeds from that row, and a resolved row with no stored entries falls
back to `random_state`, successfully returning a registered state. -/
theorem claim_C3_recoverable_fallbacks (tokens : List Token) (k : Nat)
    (m : MarkovGeneratorBase) (cur : State) (rIdx rState rSample : Nat)
    (_hm : from_tokens tokens k = some m) (hn : 1 ≤ m.states.length) :
    (get_index m.states cur = none →
      m.random_state_index rIdx = some (rIdx % m.states.length) ∧
      rIdx % m.states.length < m.states.length ∧
      m.predict cur rIdx rState rSample =
        m.predict_row (rIdx % m.states.length) rState rSample) ∧
    (∀ i, get_index m.states cur = some i → m.mat.outer_view i = some [] →
      m.predict cur rIdx rState rSample =
        get_state m.states (rState % m.states.length) ∧
      (m.predict cur rIdx rState rSample).isSome) := by
  have hlen : m.states.length ≠ 0 := by omega
  constructor
  · intro hnone
    have hrsi : m.random_state_index rIdx = some (rIdx % m.states.length) := by
      unfold MarkovGeneratorBase.random_state_index random_range
      rw [if_neg hlen]
    refine ⟨hrsi, Nat.mod_lt _ (by omega), ?_⟩
    rw [predict_eq_of_not_found hnone, hrsi]
    rfl
  · intro i hsome hview
    have heq : m.predict cur rIdx rState rSample =
        get_state m.states (rState % m.states.length) := by
      rw [predict_eq_predict_row hsome, predict_row_empty hview]
      unfold MarkovGeneratorBase.random_state MarkovGeneratorBase.random_state_index
        random_range
      rw [if_neg hlen]
      rfl
    refine ⟨heq, ?_⟩
    rw [heq]
    unfold get_state
    rw [List.getElem?_eq_getElem (Nat.mod_lt _ (by omega))]
    rfl

/-- C3 witness: on the model trained from `[a, b]` with chain order 1,
the unknown state `[c]` resolves to the random row `5 % 2`, and the
dead-end state `[a]` (empty row 0) falls back to the registered state at
`0 % 2`. -/
theorem claim_C3_witness :
    (⟨⟨2, [((1, 0), 1)]⟩, [["a"], ["b"]], 1⟩ : MarkovGeneratorBase).predict
        ["c"] 5 0 0 =
      (⟨⟨2, [((1, 0), 1)]⟩, [["a"], ["b"]], 1⟩ :
        MarkovGeneratorBase).predict_row (5 % 2) 0 0 ∧
    (⟨⟨2, [((1, 0), 1)]⟩, [["a"], ["b"]], 1⟩ : MarkovGeneratorBase).predict
        ["a"] 0 0 0 = get_state [["a"], ["b"]] (0 % 2) := by
  have ha := (claim_C3_recoverable_fallbacks ["a", "b"] 1
    ⟨⟨2, [((1, 0), 1)]⟩, [["a"], ["b"]], 1⟩ ["c"] 5 0 0 rfl (by decide)).1 (by decide)
  have hb := (claim_C3_recoverable_fallbacks ["a", "b"] 1
    ⟨⟨2, [((1, 0), 1)]⟩, [["a"], ["b"]], 1⟩ ["a"] 0 0 0 rfl (by decide)).2 0
    (by decide) (by decide)
  exact ⟨ha.2.2, hb.1⟩

/-- C4 counterexample: after 65536 observations of the same transition the
stored u16 count wraps to 0; the resolved row of the trained model is
non-empty, yet predict panics (`WeightedIndex::new` on all-zero weights)
instead of sampling a stored column. -/
theorem claim_C4_counterexample :
    from_tokens (List.replicate 65537 "a") 1 =
      some ⟨⟨65537, [((0, 0), 0)]⟩, [["a"]], 1⟩ ∧
    get_index [["a"]] ["a"] = some 0 ∧
    (⟨⟨65537, [((0, 0), 0)]⟩, [["a"]], 1⟩ : MarkovGeneratorBase).mat.outer_view 0 =
      some [(0, 0)] ∧
    ([((0 : Nat), (0 : Nat))] : List (Nat × Nat)) ≠ [] ∧
    (⟨⟨65537, [((0, 0), 0)]⟩, [["a"]], 1⟩ : MarkovGeneratorBase).predict
      ["a"] 0 0 0 = none := by
  refine ⟨replicate_model, rfl, rfl, by decide, rfl⟩

/-- C4 (amended): for a trained model and a registered state whose
resolved row is non-empty with a nonzero total stored count, predict
samples an index with probability proportional to the counts (the number
of draws selecting index j out of the total equals the j-th weight) and
successfully returns the state registered at the selected column, which
is a stored entry of that row. -/
theorem claim_C4_weighted_sampling (tokens : List Token) (k : Nat)
    (m : MarkovGeneratorBase) (cur : State) (row : Nat)
    (rv : List (Nat × Nat)) (rIdx rState rSample : Nat)
    (hm : from_tokens tokens k = some m)
    (hrow : get_index m.states cur = some row)
    (hview : m.mat.outer_view row = some rv)
    (hne : rv ≠ [])
    (htot : (rv.map (fun e => e.2)).sum ≠ 0) :
    (∃ j, ∃ hj : j < rv.length,
      weightedSample (rv.map (fun e => e.2)) rSample = some j ∧
      m.predict cur rIdx rState rSample = get_state m.states (rv.get ⟨j, hj⟩).1 ∧
      (m.predict cur rIdx rState rSample).isSome ∧
      rv.get ⟨j, hj⟩ ∈ rv) ∧
    (∀ j, ((List.range ((rv.map (fun e => e.2)).sum)).countP
      (fun t => pick (rv.map (fun e => e.2)) t == j)) =
        (rv.map (fun e => e.2)).getD j 0) := by
  constructor
  · have hmod : rSample % (rv.map (fun e => e.2)).sum <
        (rv.map (fun e => e.2)).sum := Nat.mod_lt _ (by omega)
    have hjlt : pick (rv.map (fun e => e.2))
        (rSample % (rv.map (fun e => e.2)).sum) < rv.length := by
      have := pick_lt hmod
      rwa [List.length_map] at this
    have hwsample : weightedSample (rv.map (fun e => e.2)) rSample =
        some (pick (rv.map (fun e => e.2))
          (rSample % (rv.map (fun e => e.2)).sum)) := by
      unfold weightedSample
      rw [if_neg htot]
    have heq : m.predict cur rIdx rState rSample =
        get_state m.states (rv.get ⟨_, hjlt⟩).1 := by
      rw [predict_eq_predict_row hrow, predict_row_nonempty hview hne, hwsample]
      show ((rv.map (fun e => e.1))[pick (rv.map (fun e => e.2))
          (rSample % (rv.map (fun e => e.2)).sum)]?).bind
        (fun c => get_state m.states c) = _
      rw [List.getElem?_map, List.getElem?_eq_getElem hjlt]
      rfl
    have hmem : rv.get ⟨_, hjlt⟩ ∈ rv := rv.get_mem _ _
    obtain ⟨_, _, hstates, hnod, hget⟩ := from_tokens_spec hm
    have hgetrc : m.mat.get row (rv.get ⟨_, hjlt⟩).1 =
        some (rv.get ⟨_, hjlt⟩).2 :=
      get_of_mem_outer_view hnod hview
        (by rw [show ((rv.get ⟨_, hjlt⟩).1, (rv.get ⟨_, hjlt⟩).2) =
          rv.get ⟨_, hjlt⟩ from rfl]; exact hmem)
    have hpcne : pairCount (windows tokens k) row (rv.get ⟨_, hjlt⟩).1 ≠ 0 := by
      intro h0
      rw [hget row (rv.get ⟨_, hjlt⟩).1, if_pos h0] at hgetrc
      exact Option.noConfusion hgetrc
    have hcol : (rv.get ⟨_, hjlt⟩).1 < m.states.length := by
      have := (pairCount_ids_lt hpcne).2
      rwa [← hstates] at this
    have hsome : (m.predict cur rIdx rState rSample).isSome := by
      rw [heq]
      unfold get_state
      rw [List.getElem?_eq_getElem hcol]
      rfl
    exact ⟨_, hjlt, hwsample, heq, hsome, hmem⟩
  · intro j
    exact pick_count (rv.map (fun e => e.2)) j

/-- C4 witness: on the model trained from `[a, b]` with chain order 1,
predicting from the registered state `[b]` (row 1, single entry at column
0 with count 1) succeeds. -/
theorem claim_C4_witness :
    ∃ j, ∃ hj : j < [((0 : Nat), (1 : Nat))].length,
      weightedSample ([((0 : Nat), (1 : Nat))].map (fun e => e.2)) 0 = some j ∧
      (⟨⟨2, [((1, 0), 1)]⟩, [["a"], ["b"]], 1⟩ : MarkovGeneratorBase).predict
          ["b"] 0 0 0 =
        get_state [["a"], ["b"]] ([((0 : Nat), (1 : Nat))].get ⟨j, hj⟩).1 ∧
      ((⟨⟨2, [((1, 0), 1)]⟩, [["a"], ["b"]], 1⟩ : MarkovGeneratorBase).predict
        ["b"] 0 0 0).isSome ∧
      [((0 : Nat), (1 : Nat))].get ⟨j, hj⟩ ∈ [((0 : Nat), (1 : Nat))] :=
  (claim_C4_weighted_sampling ["a", "b"] 1
    ⟨⟨2, [((1, 0), 1)]⟩, [["a"], ["b"]], 1⟩ ["b"] 1 [(0, 1)] 0 0 0 rfl
    (by decide) (by decide) (by decide) (by decide)).1

/-- C5 (code bug): the training counters wrap at 2^16, so 65536
observations of the same transition materialise a stored matrix entry
with value 0, violating the exact-sparsity invariant. -/
theorem claim_C5_zero_entry :
    from_tokens (List.replicate 65537 "a") 1 =
      some ⟨⟨65537, [((0, 0), 0)]⟩, [["a"]], 1⟩ ∧
    (⟨⟨65537, [((0, 0), 0)]⟩, [["a"]], 1⟩ : MarkovGeneratorBase).mat.get 0 0 =
      some 0 ∧
    (((0, 0), 0) : (Nat × Nat) × Nat) ∈
      (⟨⟨65537, [((0, 0), 0)]⟩, [["a"]], 1⟩ : MarkovGeneratorBase).mat.entries :=
  ⟨replicate_model, rfl, by decide⟩

/-- C6: a token sequence of length exactly k trains to a model with one
registered state and no stored matrix entries. -/
theorem claim_C6_boundary (tokens : List Token) (k : Nat) (hk : 1 ≤ k)
    (hlen : tokens.length = k) :
    ∃ m, from_tokens tokens k = some m ∧
      m.states.length = 1 ∧ m.mat.entries = [] := by
  have hk0 : k ≠ 0 := by omega
  have hguard : ¬ tokens.length + 1 < k := by omega
  have hwlen : (windows tokens k).length = 1 := by
    rw [windows_length]
    omega
  obtain ⟨w, hw⟩ : ∃ w, windows tokens k = [w] := by
    cases hws : windows tokens k with
    | nil =>
      rw [hws] at hwlen
      simp at hwlen
    | cons w rest =>
      cases hrest : rest with
      | nil => exact ⟨w, rfl⟩
      | cons b r2 =>
        rw [hws, hrest] at hwlen
        simp at hwlen
  obtain ⟨hstates, _, _, _, hget⟩ :=
    trainFold_spec (tokens.length - (k - 1)) (windows tokens k)
  refine ⟨_, from_tokens_eq tokens k hk0 hguard, ?_, ?_⟩
  · show (trainFold (tokens.length - (k - 1)) (windows tokens k)).states.length = 1
    rw [hstates, hw]
    rfl
  · show (trainFold (tokens.length - (k - 1)) (windows tokens k)).mat.entries = []
    apply CsMat.entries_eq_nil_of_get_none
    intro r c
    rw [hget r c, hw, pairCount_singleton]
    rfl

/-- C6 witness: the boundary property at the corpus `[a, b]` with chain
order 2. -/
theorem claim_C6_witness :
    ∃ m, from_tokens ["a", "b"] 2 = some m ∧
      m.states.length = 1 ∧ m.mat.entries = [] :=
  claim_C6_boundary ["a", "b"] 2 (by omega) (by decide)

/-- C7: serialising a trained model (magic prefix plus the spec-modelled
varint payload) and deserialising it through the magic-dispatching load
path reproduces the model exactly — same chain order, state list and
matrix. -/
theorem claim_C7_roundtrip (tokens : List Token) (k : Nat)
    (m : MarkovGeneratorBase) (_h : from_tokens tokens k = some m) :
    decodeFile (encodeFile m) = some m :=
  decodeFile_encodeFile m

/-- C7 witness: the round trip on the model trained from `[a, b]` with
chain order 1. -/
theorem claim_C7_witness :
    decodeFile (encodeFile ⟨⟨2, [((1, 0), 1)]⟩, [["a"], ["b"]], 1⟩) =
      some ⟨⟨2, [((1, 0), 1)]⟩, [["a"], ["b"]], 1⟩ :=
  claim_C7_roundtrip ["a", "b"] 1 ⟨⟨2, [((1, 0), 1)]⟩, [["a"], ["b"]], 1⟩ rfl

/-- C8: training is deterministic — two runs on the same token sequence
and chain order produce identical state indices and matrices (the
training pass consumes no randomness and iterates no unordered
container). -/
theorem claim_C8_determinism (tokens : List Token) (k : Nat)
    (m1 m2 : MarkovGeneratorBase)
    (h1 : from_tokens tokens k = some m1)
    (h2 : from_tokens tokens k = some m2) :
    m1.states = m2.states ∧ m1.mat = m2.mat ∧ m1 = m2 := by
  rw [h1] at h2
  injection h2 with h
  subst h
  exact ⟨rfl, rfl, rfl⟩

/-- C8 witness: determinism at the corpus `[a, b]` with chain order 1. -/
theorem claim_C8_witness :
    ∃ m1 m2, from_tokens ["a", "b"] 1 = some m1 ∧
      from_tokens ["a", "b"] 1 = some m2 ∧
      m1.states = m2.states ∧ m1.mat = m2.mat ∧ m1 = m2 := by
  obtain ⟨hs, hm, he⟩ := claim_C8_determinism ["a", "b"] 1
    ⟨⟨2, [((1, 0), 1)]⟩, [["a"], ["b"]], 1⟩
    ⟨⟨2, [((1, 0), 1)]⟩, [["a"], ["b"]], 1⟩ rfl rfl
  exact ⟨_, _, rfl, rfl, hs, hm, he⟩

/-- C9 counterexample: the seed state built from the one-token phrase
`[a]` with chain order 2 has length 1, not 2 — no padding occurs. -/
theorem claim_C9_counterexample :
    (State.from_slice ["a"] 2).length = 1 ∧
    ¬((State.from_slice ["a"] 2).length = 2) :=
  ⟨rfl, by decide⟩

/-- C9 (amended): every state built by the training windows has exactly k
tokens, but the seed state from a user phrase is the last
`min k (phrase length)` tokens of the phrase: a phrase shorter than k
yields a seed shorter than k, handled later by the unknown-state
fallback of predict. -/
theorem claim_C9_seed_state :
    (∀ tokens k, State.from_slice tokens k =
        tokens.drop (tokens.length - k) ∧
      (State.from_slice tokens k).length = min k tokens.length) ∧
    (∀ tokens k w, w ∈ windows tokens k → w.length = k) := by
  constructor
  · intro tokens k
    refine ⟨rfl, ?_⟩
    unfold State.from_slice
    rw [List.length_drop]
    omega
  · intro tokens k w hw
    unfold windows at hw
    rw [List.mem_map] at hw
    obtain ⟨i, hi, rfl⟩ := hw
    rw [List.mem_range] at hi
    unfold State.from_slice
    simp only [List.length_drop, List.length_take]
    omega

/-- C9 witness: the truncation length at the short phrase `[a]` with
chain order 2, and the window length at the corpus `[a, b]` with chain
order 1. -/
theorem claim_C9_witness :
    (State.from_slice ["a"] 2).length = min 2 1 ∧
    (["a"] : State).length = 1 := by
  constructor
  · exact (claim_C9_seed_state.1 ["a"] 2).2
  · exact claim_C9_seed_state.2 ["a", "b"] 1 ["a"] (by decide)

/-- C10 counterexample: the trained wrapped-counter model has one
registered state, yet predict fails on it — the `WeightedIndex` unwrap
panics on the all-zero row — so "no unwrap fails" does not hold for every
model with at least one state. -/
theorem claim_C10_counterexample :
    from_tokens (List.replicate 65537 "a") 1 =
      some ⟨⟨65537, [((0, 0), 0)]⟩, [["a"]], 1⟩ ∧
    (⟨⟨65537, [((0, 0), 0)]⟩, [["a"]], 1⟩ :
      MarkovGeneratorBase).states.length = 1 ∧
    (⟨⟨65537, [((0, 0), 0)]⟩, [["a"]], 1⟩ : MarkovGeneratorBase).predict
      ["a"] 0 0 0 = none :=
  ⟨replicate_model, rfl, rfl⟩

/-- C10 (amended): for every trained model with at least one registered
state, `random_state_index` yields a valid id, the number of registered
states never exceeds the matrix dimension, and the `get_state`,
`random_state` and `outer_view` lookups (and their unwraps) all succeed;
for a model with zero registered states, every call to `random_state` or
`predict` panics. -/
theorem claim_C10_lookup_safety (tokens : List Token) (k : Nat)
    (m : MarkovGeneratorBase) (h : from_tokens tokens k = some m) :
    (1 ≤ m.states.length →
      (∀ r, m.random_state_index r = some (r % m.states.length) ∧
        r % m.states.length < m.states.length) ∧
      m.states.length ≤ m.mat.dim ∧
      (∀ r, (m.random_state r).isSome) ∧
      (∀ i, i < m.states.length →
        (get_state m.states i).isSome ∧ (m.mat.outer_view i).isSome)) ∧
    (m.states.length = 0 →
      (∀ r, m.random_state r = none) ∧
      (∀ cur r1 r2 r3, m.predict cur r1 r2 r3 = none)) := by
  constructor
  · intro hn
    have hlen : m.states.length ≠ 0 := by omega
    have hrsi : ∀ r, m.random_state_index r = some (r % m.states.length) := by
      intro r
      unfold MarkovGeneratorBase.random_state_index random_range
      rw [if_neg hlen]
    have hle := from_tokens_states_le_dim h
    refine ⟨fun r => ⟨hrsi r, Nat.mod_lt _ (by omega)⟩, hle, ?_, ?_⟩
    · intro r
      unfold MarkovGeneratorBase.random_state
      rw [hrsi r]
      show (get_state m.states (r % m.states.length)).isSome
      unfold get_state
      rw [List.getElem?_eq_getElem (Nat.mod_lt _ (by omega))]
      rfl
    · intro i hi
      constructor
      · unfold get_state
        rw [List.getElem?_eq_getElem hi]
        rfl
      · unfold CsMat.outer_view
        rw [if_pos (by omega)]
        rfl
  · intro h0
    have hnil : m.states = [] := List.length_eq_zero.mp h0
    have hrs : ∀ r, m.random_state r = none := by
      intro r
      unfold MarkovGeneratorBase.random_state MarkovGeneratorBase.random_state_index
        random_range
      rw [if_pos h0]
      rfl
    refine ⟨hrs, ?_⟩
    intro cur r1 r2 r3
    have hgi : get_index m.states cur = none := by
      rw [hnil]
      rfl
    rw [predict_eq_of_not_found hgi]
    show ((m.random_state_index r1).bind
      (fun row_index => m.predict_row row_index r2 r3)) = none
    unfold MarkovGeneratorBase.random_state_index random_range
    rw [if_pos h0]
    rfl

/-- C10 witness: the safe-lookup half at the model trained from `[a, b]`
with chain order 1, and the zero-state half at the model trained from
`[a]` with chain order 2. -/
theorem claim_C10_witness :
    (⟨⟨2, [((1, 0), 1)]⟩, [["a"], ["b"]], 1⟩ :
      MarkovGeneratorBase).random_state_index 5 = some (5 % 2) ∧
    (⟨⟨2, [((1, 0), 1)]⟩, [["a"], ["b"]], 1⟩ :
        MarkovGeneratorBase).states.length ≤
      (⟨⟨2, [((1, 0), 1)]⟩, [["a"], ["b"]], 1⟩ :
        MarkovGeneratorBase).mat.dim ∧
    (⟨⟨0, []⟩, [], 2⟩ : MarkovGeneratorBase).predict ["x"] 0 0 0 = none := by
  have h1 := (claim_C10_lookup_safety ["a", "b"] 1
    ⟨⟨2, [((1, 0), 1)]⟩, [["a"], ["b"]], 1⟩ rfl).1 (by decide)
  have h2 := (claim_C10_lookup_safety ["a"] 2 ⟨⟨0, []⟩, [], 2⟩ rfl).2 rfl
  exact ⟨(h1.1 5).1, h1.2.1, h2.2 ["x"] 0 0 0⟩

end Markov

